import Mathlib

/-!
Verification of the slog structured stringifier and logging helpers.

The development shallowly embeds the C sources:
 * `inc/slog/err_gen.h` — the X-macro generated `<Struct>_to_str` renderer
   (`_DEFINE_TO_STR_INTERNAL` together with `_XMACRO_FIELD_TO_STRING_LOGIC`);
 * `src/slog.c` — `format_logfmt` and `parse_unknown_error`.

Modelling conventions:
 * A C `char` buffer of a given size is a `List Char`; writing `buffer[i] = c`
   is `List.set`, which is a no-op out of range (the C code bounds-checks every
   write against `buffer_size`, so in-range behaviour is what matters, and a
   NULL buffer with size 0 is modelled by the empty list).
 * `snprintf(dst, n, fmt, ...)` producing the text `out` writes
   `min (length out) (n-1)` characters plus a terminating NUL when `n > 0`,
   writes nothing when `n = 0`, and returns `length out`.  Scalar formatting
   (`"%d"`, `"%s"` applied to the field value) is abstracted by storing, for
   every primitive field, the already-rendered value string; the model assumes
   field names and prefixes contain no `%` conversion specifier (the generated
   code would otherwise re-interpret them, which is undefined behaviour for
   the argument list it passes).
 * Machine integers (`int offset`, `size_t buffer_size`) are modelled as `Nat`;
   the C comparisons `offset < buffer_size` promote the non-negative `offset`
   to `size_t`, which agrees with `Nat` comparison.  Chars stand for bytes.
-/

namespace Slog

/-- The NUL byte `'\0'`. -/
def nulChar : Char := Char.ofNat 0

/-- The space byte `' '`. -/
def spChar : Char := Char.ofNat 32

/-- Write the characters `cs` consecutively starting at index `i`
(each write is a bounds-safe `List.set`). -/
def writeChars : List Char → Nat → List Char → List Char
  | buf, _, [] => buf
  | buf, i, c :: cs => writeChars (buf.set i c) (i + 1) cs

/-- `snprintf(buf + pos, avail, ...)` producing the full text `out`:
when `avail = 0` nothing is written; otherwise the first
`min (length out) (avail - 1)` characters are written at `pos` followed by a
terminating NUL.  (The C return value `length out` is handled by the caller.) -/
def snprintfAt (buf : List Char) (pos avail : Nat) (out : List Char) : List Char :=
  if avail = 0 then buf
  else
    let k := min out.length (avail - 1)
    (writeChars buf pos (out.take k)).set (pos + k) nulChar

/-- A record shape/value: the ordered field list fed to the X-macros.
`prim name val` is a `PRIMITIVE` field whose value already rendered via its
format specifier is `val`; `nest name sub` is a `STRUCT` field whose nested
record is `sub`. -/
inductive Fields where
  | nil : Fields
  | prim (name val : String) (rest : Fields) : Fields
  | nest (name : String) (sub : Fields) (rest : Fields) : Fields

/-- `snprintf(field_full_name, sizeof(field_full_name), ...)` truncates the
dotted path to the 255 characters that fit in the 256-byte buffer. -/
def take255 (s : String) : String := String.mk (s.data.take 255)

/-- The `field_full_name` computation of `_XMACRO_FIELD_TO_STRING_LOGIC`:
`"%s.%s"` of prefix and name when the prefix is non-empty, else the bare
name, truncated to 255 characters either way. -/
def fieldFullName (pfx name : String) : String :=
  if pfx = "" then take255 name else take255 (pfx ++ "." ++ name)

/-- Result of running the field-rendering loop: the mutated buffer together
with the final `offset` on success, or the mutated buffer alone when the code
`return -1`s. -/
inductive RRes where
  | ok (buf : List Char) (off : Nat) : RRes
  | err (buf : List Char) : RRes

/-- The remaining-space computation
`(buffer_size > offset ? buffer_size - offset : 0)`. -/
def availOf (cap off : Nat) : Nat := if cap > off then cap - off else 0

/-- The text `snprintf` renders for one primitive field: the format string is
`"%s=%s"` of the full field path and the scalar format specifier, so the
rendered result is `fieldpath=value` (the scalar's own rendering is the
stored `val`). -/
def primText (pfx name val : String) : List Char :=
  (fieldFullName pfx name ++ "=" ++ val).data

/-- The separator step at the head of `_XMACRO_FIELD_TO_STRING_LOGIC`:
if this is not the first field, write `' '` at `offset` when it fits,
otherwise NUL-terminate defensively and `return -1`. -/
def sepStep (base cap : Nat) (first : Bool) (off : Nat) (buf : List Char) : RRes :=
  if first then .ok buf off
  else if off < cap then .ok (buf.set (base + off) spChar) (off + 1)
  else .err (if 0 < cap then buf.set (base + cap - 1) nulChar else buf)

/-- The defensive NUL-termination used both on per-field failure
(`if (buffer_size > 0 && offset < buffer_size) buffer[offset] = '\0';
else if (buffer_size > 0) buffer[buffer_size-1] = '\0';`) and at the end of
`_DEFINE_TO_STR_INTERNAL` (whose two branches compute the same writes). -/
def defensiveTerm (base cap off : Nat) (buf : List Char) : List Char :=
  if 0 < cap ∧ off < cap then buf.set (base + off) nulChar
  else if 0 < cap then buf.set (base + cap - 1) nulChar
  else buf

/-- The field loop of `_DEFINE_TO_STR_INTERNAL`: one iteration of
`_XMACRO_FIELD_TO_STRING_LOGIC` per field.  `base` is the offset of this
window in the whole buffer (the C code passes `buffer + offset` to nested
calls), `cap` the window's `buffer_size`, `pfx` the `name_prefix`, `first`
the `first_field_in_struct` flag and `off` the running `offset`.  The
`STRUCT` branch inlines the nested `<Sub>_to_str` body (its NULL check is
dead: `&s->cname` is never NULL), including that call's own final
defensive termination and its returned offset. -/
def fieldsToStr : Nat → Nat → String → Fields → Bool → Nat → List Char → RRes
  | _, _, _, .nil, _, off, buf => .ok buf off
  | base, cap, pfx, .prim name val rest, first, off, buf =>
    match sepStep base cap first off buf with
    | .err b => .err b
    | .ok b1 o1 =>
      if availOf cap o1 ≤ (primText pfx name val).length then
        .err (defensiveTerm base cap o1
          (snprintfAt b1 (base + o1) (availOf cap o1) (primText pfx name val)))
      else
        fieldsToStr base cap pfx rest false (o1 + (primText pfx name val).length)
          (snprintfAt b1 (base + o1) (availOf cap o1) (primText pfx name val))
  | base, cap, pfx, .nest name sub rest, first, off, buf =>
    match sepStep base cap first off buf with
    | .err b => .err b
    | .ok b1 o1 =>
      match fieldsToStr (base + o1) (availOf cap o1) (fieldFullName pfx name) sub true 0 b1 with
      | .err b2 => .err (defensiveTerm base cap o1 b2)
      | .ok b2 o2 =>
        fieldsToStr base cap pfx rest false (o1 + o2)
          (defensiveTerm (base + o1) (availOf cap o1) o2 b2)

/-- `<Struct>_to_str(buffer, buffer_size, s, name_prefix)` from
`_DEFINE_TO_STR_INTERNAL`.  A NULL record with positive capacity writes an
empty string and returns 0.  (With `s == NULL` and `buffer_size == 0` the C
code falls past the unreturned NULL check into the field loop and
dereferences NULL — undefined behaviour; that branch is modelled as a plain
`(buf, 0)` and is not relied on by any theorem.)  Otherwise the field loop
runs and, on success, the final defensive termination is applied and
`offset` returned; each failing field has already returned `-1`. -/
def to_str (buf : List Char) (bufSize : Nat) (s : Option Fields) (pfx : String) :
    List Char × Int :=
  match s with
  | none => if 0 < bufSize then (buf.set 0 nulChar, 0) else (buf, 0)
  | some t =>
    match fieldsToStr 0 bufSize pfx t true 0 buf with
    | .err b => (b, -1)
    | .ok b off => (defensiveTerm 0 bufSize off b, (off : Int))

/-! ### Pure description of the rendered text -/

/-- The unbounded-buffer output of the field loop: separator (when not the
first field of its record), then the field's own text, recursively. -/
def fieldsText : String → Bool → Fields → List Char
  | _, _, .nil => []
  | pfx, first, .prim n v rest =>
      (if first then [] else [spChar]) ++ primText pfx n v ++ fieldsText pfx false rest
  | pfx, first, .nest n sub rest =>
      (if first then [] else [spChar]) ++ fieldsText (fieldFullName pfx n) true sub
        ++ fieldsText pfx false rest

/-- Does the record contain at least one primitive (scalar) field? -/
def hasPrim : Fields → Bool
  | .nil => false
  | .prim _ _ _ => true
  | .nest _ sub rest => hasPrim sub || hasPrim rest

/-- Concrete records used by the tests (`src/tests/test_slog.c`). -/
def pointRec (x y : String) : Fields := .prim "x" x (.prim "y" y .nil)

/-- `Line l1 = {{10,20},{30,40},"MainLine"}` from the test suite. -/
def lineRec : Fields :=
  .nest "start" (pointRec "10" "20")
    (.nest "end" (pointRec "30" "40")
      (.prim "label" "MainLine" .nil))

/-- The expected rendering of `lineRec` with prefix `"myline"`
(spec scenario 2 and `test_slog.c`). -/
def lineExpected : String :=
  "myline.start.x=10 myline.start.y=20 myline.end.x=30 myline.end.y=40 myline.label=MainLine"

/-! ### Spec-side key/token descriptions -/

/-- The dotted path as the spec words it: prefix, a dot, the field name —
or the bare name when the prefix is empty.  (No truncation.) -/
def specName (pfx n : String) : String := if pfx = "" then n else pfx ++ "." ++ n

/-- One segment of a rendered line: a key segment (a dotted path) or
literal bytes (separators, `=`, rendered scalar values). -/
inductive Seg where
  | key (k : String) : Seg
  | lit (cs : List Char) : Seg

/-- The bytes of one segment. -/
def segText : Seg → List Char
  | .key k => k.data
  | .lit cs => cs

/-- The bytes of a segment list. -/
def segsText : List Seg → List Char
  | [] => []
  | s :: ss => segText s ++ segsText ss

/-- The rendered text of a record split into its key segments and literal
segments, with the code's (truncating) `field_full_name` paths.  Empty nested
records contribute their separator but no key, exactly as the field loop
does. -/
def fieldsSegs : String → Bool → Fields → List Seg
  | _, _, .nil => []
  | pfx, first, .prim n v rest =>
      (if first then [] else [.lit [spChar]]) ++
        (.key (fieldFullName pfx n) :: .lit ('=' :: v.data) :: fieldsSegs pfx false rest)
  | pfx, first, .nest n sub rest =>
      (if first then [] else [.lit [spChar]]) ++
        (fieldsSegs (fieldFullName pfx n) true sub ++ fieldsSegs pfx false rest)

/-- The same segments with the spec's untruncated dotted paths. -/
def specSegs : String → Bool → Fields → List Seg
  | _, _, .nil => []
  | pfx, first, .prim n v rest =>
      (if first then [] else [.lit [spChar]]) ++
        (.key (specName pfx n) :: .lit ('=' :: v.data) :: specSegs pfx false rest)
  | pfx, first, .nest n sub rest =>
      (if first then [] else [.lit [spChar]]) ++
        (specSegs (specName pfx n) true sub ++ specSegs pfx false rest)

/-- Prefixing a key segment with `P.` (the claim's transform on the output of
`render(R, "")`); literal bytes are untouched. -/
def prefixSeg (P : String) : Seg → Seg
  | .key k => .key (P ++ "." ++ k)
  | .lit cs => .lit cs

/-- All field names are non-empty (C field names are identifiers). -/
def goodNames : Fields → Bool
  | .nil => true
  | .prim n _ rest => decide (n ≠ "") && goodNames rest
  | .nest n sub rest => decide (n ≠ "") && goodNames sub && goodNames rest

/-- Every dotted path reachable from this prefix stays within the 255
characters that survive the code's 256-byte `field_full_name` buffer. -/
def pathsFit : String → Fields → Bool
  | _, .nil => true
  | pfx, .prim n _ rest =>
      decide ((specName pfx n).length ≤ 255) && pathsFit pfx rest
  | pfx, .nest n sub rest =>
      decide ((specName pfx n).length ≤ 255) && pathsFit (specName pfx n) sub
        && pathsFit pfx rest

/-! ### The default formatter `format_logfmt` (src/slog.c) -/

/-- The bytes one value byte contributes inside the quotes: `"` becomes
`\"`, `\` becomes `\\`, every other byte is copied verbatim. -/
def escChunk (c : Char) : List Char :=
  if c = '"' then ['\\', '"'] else if c = '\\' then ['\\', '\\'] else [c]

/-- The value-escaping loop of `format_logfmt`. -/
def escapeValue : List Char → List Char
  | [] => []
  | c :: cs => escChunk c ++ escapeValue cs

/-- The per-pair part of the `required_size` computation: pairs with a NULL
key or value are skipped, the others reserve `strlen(key) + strlen(value) + 4`. -/
def pairsSize : List (Option String × Option String) → Nat
  | [] => 0
  | (some k, some v) :: rest => k.length + v.length + 4 + pairsSize rest
  | _ :: rest => pairsSize rest

/-- `user_message && strlen(user_message) > 0`. -/
def msgNonempty : Option String → Bool
  | some m => !m.isEmpty
  | none => false

/-- The full `required_size` computation of `format_logfmt`: message length,
per-pair reserves, one terminator byte, and one separator byte when
`num_pairs > 0` and the message is non-empty. -/
def requiredSize (msg : Option String) (pairs : List (Option String × Option String)) : Nat :=
  (match msg with | some m => m.length | none => 0) + pairsSize pairs + 1 +
    (if 0 < pairs.length ∧ msgNonempty msg = true then 1 else 0)

/-- The byte sequence one emit-loop iteration appends for a pair with
non-NULL key and value: a single separating space when the accumulated
buffer is non-empty and does not already end in a space, then
`key="escaped value"`.  (This is the text of the writes; the bounds of the
allocation they land in are enforced by `appendPairB` below.) -/
def appendPair (buf : List Char) (k v : String) : List Char :=
  (if buf ≠ [] ∧ buf.getLast? ≠ some spChar then buf ++ [spChar] else buf)
    ++ k.data ++ '=' :: '"' :: escapeValue v.data ++ ['"']

/-- The text built by the emit loop of `format_logfmt`: pairs with a NULL
key or value are skipped. -/
def formatLoop : List Char → List (Option String × Option String) → List Char
  | buf, [] => buf
  | buf, (some k, some v) :: rest => formatLoop (appendPair buf k v) rest
  | buf, _ :: rest => formatLoop buf rest

/-- The initial buffer contents: the user message (empty when NULL or
empty). -/
def msgInit : Option String → List Char
  | some m => m.data
  | none => []

/-- The full line text the `strcat` calls of `format_logfmt` produce,
ignoring the allocation bound.  `format_logfmt` itself (below) checks every
write against the `malloc(required_size)` block. -/
def lineText (msg : Option String)
    (pairs : List (Option String × Option String)) : List Char :=
  formatLoop (msgInit msg) pairs

/-- One `strcat(buffer, cs)` into a `size`-byte allocation: it writes the
bytes of `cs` and a NUL terminator at indices `len .. len + |cs|`, which is
an out-of-bounds write (undefined behaviour, modelled as `none`) unless
`len + |cs| + 1 ≤ size`. -/
def strcatB (size : Nat) : Option (List Char) → List Char → Option (List Char)
  | none, _ => none
  | some b, cs => if b.length + cs.length + 1 ≤ size then some (b ++ cs) else none

/-- The value loop of `format_logfmt`: one `strcat` per value byte (a 1- or
2-byte chunk). -/
def escLoopB (size : Nat) : Option (List Char) → List Char → Option (List Char)
  | buf, [] => buf
  | buf, c :: cs => escLoopB size (strcatB size buf (escChunk c)) cs

/-- One emit-loop iteration of `format_logfmt` with every `strcat` checked
against the allocation: optional separator, key, `="`, the escaped value
bytes, closing quote. -/
def appendPairB (size : Nat) (buf : Option (List Char)) (k v : String) :
    Option (List Char) :=
  let b1 := match buf with
    | none => none
    | some b =>
      if b ≠ [] ∧ b.getLast? ≠ some spChar then strcatB size (some b) [spChar]
      else some b
  strcatB size (escLoopB size (strcatB size (strcatB size b1 k.data) ['=', '"']) v.data)
    ['"']

/-- The emit loop of `format_logfmt` over the bounded allocation. -/
def formatLoopB (size : Nat) :
    Option (List Char) → List (Option String × Option String) → Option (List Char)
  | buf, [] => buf
  | buf, (some k, some v) :: rest => formatLoopB size (appendPairB size buf k v) rest
  | buf, _ :: rest => formatLoopB size buf rest

/-- `format_logfmt(user_message, pairs, num_pairs)`: allocates exactly
`required_size` bytes (a computation that reserves no space for escape
expansion), copies the user message, then runs the emit loop with every
`strcat` bounds-checked against that allocation; `none` models the
out-of-bounds write (undefined behaviour) the C performs when the escaped
line does not fit.  `num_pairs` is the length of the modelled pair list and
`malloc` itself is assumed to succeed. -/
def format_logfmt (msg : Option String)
    (pairs : List (Option String × Option String)) : Option (List Char) :=
  let size := requiredSize msg pairs
  let b0 : Option (List Char) :=
    match msg with
    | some m => if m.length + 1 ≤ size then some m.data else none
    | none => some []
  formatLoopB size b0 pairs

/-- The result of a bounds-checked write sequence producing `X` inside a
`size`-byte allocation: the bytes plus their NUL terminator either fit or
the sequence has gone out of bounds. -/
def fitted (size : Nat) (X : List Char) : Option (List Char) :=
  if X.length + 1 ≤ size then some X else none

/-- Spec-side `key="escaped value"` token of the logfmt line. -/
def logfmtToken (k v : String) : List Char :=
  k.data ++ '=' :: '"' :: escapeValue v.data ++ ['"']

/-- Logfmt tokens joined by single spaces. -/
def logfmtTokens : List (String × String) → List Char
  | [] => []
  | [kv] => logfmtToken kv.1 kv.2
  | kv :: kvs => logfmtToken kv.1 kv.2 ++ spChar :: logfmtTokens kvs

/-! ### The fallback extractor `parse_unknown_error` (src/slog.c) -/

/-- The `%p` rendering of a non-null pointer address (lowercase hex with a
`0x` prefix, as glibc prints it). -/
def ptrStr (a : Nat) : String := "0x" ++ String.mk (Nat.toDigits 16 a)

/-- `parse_unknown_error(error_details, num_pairs_out)`: a NULL record gives
no pairs and count 0; a non-null record gives the single pair
`{"unknown_error_type": "unhandled_type_at_address_<hex>"}` and count 1.
The pointer is modelled by its address; allocation is abstracted as
succeeding. -/
def parse_unknown_error : Option Nat → Option (List (String × String)) × Nat
  | none => (none, 0)
  | some a =>
      (some [("unknown_error_type", "unhandled_type_at_address_" ++ ptrStr a)], 1)

/-! ### Buffer bookkeeping -/

/-- The buffer component of a loop result. -/
def RRes.bufOf : RRes → List Char
  | .ok b _ => b
  | .err b => b

theorem length_writeChars (cs : List Char) :
    ∀ buf i, (writeChars buf i cs).length = buf.length := by
  induction cs with
  | nil => intro buf i; rfl
  | cons c cs ih => intro buf i; simp [writeChars, ih]

theorem length_snprintfAt (buf : List Char) (pos avail : Nat) (out : List Char) :
    (snprintfAt buf pos avail out).length = buf.length := by
  unfold snprintfAt; split
  · rfl
  · simp [length_writeChars]

theorem length_defensiveTerm (base cap off : Nat) (buf : List Char) :
    (defensiveTerm base cap off buf).length = buf.length := by
  unfold defensiveTerm
  split
  · simp
  · split
    · simp
    · rfl

theorem length_sepStep (base cap : Nat) (first : Bool) (off : Nat) (buf : List Char) :
    (sepStep base cap first off buf).bufOf.length = buf.length := by
  unfold sepStep
  split
  · rfl
  · split
    · simp [RRes.bufOf]
    · split <;> simp [RRes.bufOf]

theorem length_fieldsToStr :
    ∀ (t : Fields) (base cap : Nat) (pfx : String) (first : Bool) (off : Nat)
      (buf : List Char),
      (fieldsToStr base cap pfx t first off buf).bufOf.length = buf.length := by
  intro t
  induction t with
  | nil => intro base cap pfx first off buf; rfl
  | prim n v rest ih =>
    intro base cap pfx first off buf
    have hs := length_sepStep base cap first off buf
    simp only [fieldsToStr]
    cases hsep : sepStep base cap first off buf with
    | err b => rw [hsep] at hs; simpa [RRes.bufOf] using hs
    | ok b1 o1 =>
      rw [hsep] at hs
      simp only [RRes.bufOf] at hs
      dsimp only
      split
      · simp [RRes.bufOf, length_defensiveTerm, length_snprintfAt, hs]
      · rw [ih, length_snprintfAt, hs]
  | nest n sub rest ihs ihr =>
    intro base cap pfx first off buf
    have hs := length_sepStep base cap first off buf
    simp only [fieldsToStr]
    cases hsep : sepStep base cap first off buf with
    | err b => rw [hsep] at hs; simpa [RRes.bufOf] using hs
    | ok b1 o1 =>
      rw [hsep] at hs
      simp only [RRes.bufOf] at hs
      dsimp only
      have hin := ihs (base + o1) (availOf cap o1) (fieldFullName pfx n) true 0 b1
      cases hsub : fieldsToStr (base + o1) (availOf cap o1) (fieldFullName pfx n) sub true 0 b1 with
      | err b2 =>
        rw [hsub] at hin
        simp only [RRes.bufOf] at hin
        simp [RRes.bufOf, length_defensiveTerm, hin, hs]
      | ok b2 o2 =>
        rw [hsub] at hin
        simp only [RRes.bufOf] at hin
        rw [ihr, length_defensiveTerm, hin, hs]

theorem sepStep_ok {base cap : Nat} {first : Bool} {off : Nat} {buf b1 : List Char}
    {o1 : Nat} (h : sepStep base cap first off buf = .ok b1 o1) :
    (first = true ∧ b1 = buf ∧ o1 = off) ∨
      (first = false ∧ off < cap ∧ b1 = buf.set (base + off) spChar ∧ o1 = off + 1) := by
  unfold sepStep at h
  split at h
  · cases h
    left
    simp_all
  · split at h
    · cases h
      right
      simp_all
    · cases h

theorem sepStep_err {base cap : Nat} {first : Bool} {off : Nat} {buf b : List Char}
    (h : sepStep base cap first off buf = .err b) :
    first = false ∧ ¬ off < cap ∧
      b = (if 0 < cap then buf.set (base + cap - 1) nulChar else buf) := by
  unfold sepStep at h
  split at h
  · cases h
  · split at h
    · cases h
    · cases h
      simp_all

/-- On success the field loop returns the old offset plus the length of the
text it renders. -/
theorem fieldsToStr_ok_off :
    ∀ (t : Fields) (base cap : Nat) (pfx : String) (first : Bool) (off : Nat)
      (buf b : List Char) (o : Nat),
      fieldsToStr base cap pfx t first off buf = .ok b o →
      o = off + (fieldsText pfx first t).length := by
  intro t
  induction t with
  | nil =>
    intro base cap pfx first off buf b o h
    cases h
    simp [fieldsText]
  | prim n v rest ih =>
    intro base cap pfx first off buf b o h
    simp only [fieldsToStr] at h
    cases hsep : sepStep base cap first off buf with
    | err b' => rw [hsep] at h; cases h
    | ok b1 o1 =>
      rw [hsep] at h
      dsimp only at h
      split at h
      · cases h
      · have hr := ih base cap pfx false (o1 + (primText pfx n v).length) _ b o h
        rcases sepStep_ok hsep with ⟨hf, _, ho1⟩ | ⟨hf, _, _, ho1⟩ <;>
          subst hf <;> subst ho1 <;> simp [fieldsText, primText, hr] <;> omega
  | nest n sub rest ihs ihr =>
    intro base cap pfx first off buf b o h
    simp only [fieldsToStr] at h
    cases hsep : sepStep base cap first off buf with
    | err b' => rw [hsep] at h; cases h
    | ok b1 o1 =>
      rw [hsep] at h
      dsimp only at h
      cases hsub : fieldsToStr (base + o1) (availOf cap o1) (fieldFullName pfx n) sub true 0 b1 with
      | err b2 => rw [hsub] at h; cases h
      | ok b2 o2 =>
        rw [hsub] at h
        dsimp only at h
        have hso := ihs _ _ _ _ _ _ _ _ hsub
        have hr := ihr base cap pfx false (o1 + o2) _ b o h
        rcases sepStep_ok hsep with ⟨hf, _, ho1⟩ | ⟨hf, _, _, ho1⟩ <;>
          subst hf <;> subst ho1 <;> simp [fieldsText, hr, hso] <;> omega

/-- The defensive termination always plants a NUL inside the window when the
window has positive capacity and lies inside the buffer. -/
theorem defensiveTerm_nul {base cap : Nat} (off : Nat) {buf : List Char}
    (hc : 0 < cap) (hlen : base + cap ≤ buf.length) :
    ∃ i, i < cap ∧ (defensiveTerm base cap off buf)[base + i]? = some nulChar := by
  unfold defensiveTerm
  by_cases hoff : off < cap
  · rw [if_pos ⟨hc, hoff⟩]
    exact ⟨off, hoff, List.getElem?_set_eq_of_lt _ (by omega)⟩
  · rw [if_neg (by omega), if_pos hc]
    refine ⟨cap - 1, by omega, ?_⟩
    have he : base + (cap - 1) = base + cap - 1 := by omega
    rw [he]
    exact List.getElem?_set_eq_of_lt _ (by omega)

/-- Every `return -1` of the field loop leaves a NUL byte somewhere inside
the window (capacity ≥ 1). -/
theorem fieldsToStr_err_nul :
    ∀ (t : Fields) (base cap : Nat) (pfx : String) (first : Bool) (off : Nat)
      (buf b : List Char),
      fieldsToStr base cap pfx t first off buf = .err b →
      0 < cap → base + cap ≤ buf.length →
      ∃ i, i < cap ∧ b[base + i]? = some nulChar := by
  intro t
  induction t with
  | nil => intro base cap pfx first off buf b h; cases h
  | prim n v rest ih =>
    intro base cap pfx first off buf b h hc hlen
    simp only [fieldsToStr] at h
    cases hsep : sepStep base cap first off buf with
    | err b' =>
      rw [hsep] at h
      cases h
      obtain ⟨-, -, hb⟩ := sepStep_err hsep
      rw [hb, if_pos hc]
      refine ⟨cap - 1, by omega, ?_⟩
      have he : base + (cap - 1) = base + cap - 1 := by omega
      rw [he]
      exact List.getElem?_set_eq_of_lt _ (by omega)
    | ok b1 o1 =>
      rw [hsep] at h
      dsimp only at h
      split at h
      · cases h
        have hl1 : b1.length = buf.length := by
          have := length_sepStep base cap first off buf
          rw [hsep] at this
          simpa [RRes.bufOf] using this
        exact defensiveTerm_nul o1 hc
          (by rw [length_snprintfAt, hl1]; exact hlen)
      · exact ih _ _ _ _ _ _ _ h hc
          (by rw [length_snprintfAt]
              have := length_sepStep base cap first off buf
              rw [hsep] at this
              simp only [RRes.bufOf] at this
              omega)
  | nest n sub rest ihs ihr =>
    intro base cap pfx first off buf b h hc hlen
    simp only [fieldsToStr] at h
    cases hsep : sepStep base cap first off buf with
    | err b' =>
      rw [hsep] at h
      cases h
      obtain ⟨-, -, hb⟩ := sepStep_err hsep
      rw [hb, if_pos hc]
      refine ⟨cap - 1, by omega, ?_⟩
      have he : base + (cap - 1) = base + cap - 1 := by omega
      rw [he]
      exact List.getElem?_set_eq_of_lt _ (by omega)
    | ok b1 o1 =>
      rw [hsep] at h
      dsimp only at h
      have hl1 : b1.length = buf.length := by
        have := length_sepStep base cap first off buf
        rw [hsep] at this
        simpa [RRes.bufOf] using this
      cases hsub : fieldsToStr (base + o1) (availOf cap o1) (fieldFullName pfx n) sub true 0 b1 with
      | err b2 =>
        rw [hsub] at h
        cases h
        have hl2 : b2.length = buf.length := by
          have := length_fieldsToStr sub (base + o1) (availOf cap o1) (fieldFullName pfx n) true 0 b1
          rw [hsub] at this
          simp only [RRes.bufOf] at this
          omega
        exact defensiveTerm_nul o1 hc (by omega)
      | ok b2 o2 =>
        rw [hsub] at h
        dsimp only at h
        have hl2 : b2.length = buf.length := by
          have := length_fieldsToStr sub (base + o1) (availOf cap o1) (fieldFullName pfx n) true 0 b1
          rw [hsub] at this
          simp only [RRes.bufOf] at this
          omega
        exact ihr _ _ _ _ _ _ _ h hc
          (by rw [length_defensiveTerm]; omega)

theorem availOf_zero (x : Nat) : availOf 0 x = 0 := by
  simp [availOf]

theorem sepStep_cap0 (base : Nat) (first : Bool) (off : Nat) (buf : List Char) :
    sepStep base 0 first off buf = if first then .ok buf off else .err buf := by
  unfold sepStep
  cases first <;> simp

/-- With a zero-capacity window the field loop never writes. -/
theorem fieldsToStr_cap0_buf :
    ∀ (t : Fields) (base : Nat) (pfx : String) (first : Bool) (off : Nat)
      (buf : List Char),
      (fieldsToStr base 0 pfx t first off buf).bufOf = buf := by
  intro t
  induction t with
  | nil => intro base pfx first off buf; rfl
  | prim n v rest ih =>
    intro base pfx first off buf
    simp only [fieldsToStr, sepStep_cap0]
    cases first
    · simp [RRes.bufOf]
    · simp only [if_pos rfl, reduceIte]
      try dsimp only
      rw [if_pos (by simp [availOf_zero])]
      simp [RRes.bufOf, defensiveTerm, availOf_zero, snprintfAt]
  | nest n sub rest ihs ihr =>
    intro base pfx first off buf
    simp only [fieldsToStr, sepStep_cap0]
    cases first
    · simp [RRes.bufOf]
    · simp only [reduceIte]
      try dsimp only
      have hin := ihs (base + off) (fieldFullName pfx n) true 0 buf
      rw [availOf_zero]
      cases hsub : fieldsToStr (base + off) 0 (fieldFullName pfx n) sub true 0 buf with
      | err b2 =>
        rw [hsub] at hin
        simp only [RRes.bufOf] at hin
        simp [RRes.bufOf, defensiveTerm, hin]
      | ok b2 o2 =>
        rw [hsub] at hin
        simp only [RRes.bufOf] at hin
        try dsimp only
        have hd : defensiveTerm (base + off) 0 o2 b2 = b2 := by
          simp [defensiveTerm]
        rw [hd, hin]
        exact ihr base pfx false (off + o2) buf

theorem hasPrim_ne_nil {t : Fields} (h : hasPrim t = true) : t ≠ .nil := by
  cases t <;> simp_all [hasPrim]

/-- With zero capacity the field loop fails (returning the untouched buffer)
as soon as the record contains a primitive field — or immediately at the
separator when not at the first field. -/
theorem fieldsToStr_cap0_err :
    ∀ (t : Fields) (base : Nat) (pfx : String) (first : Bool) (off : Nat)
      (buf : List Char),
      ((first = false ∧ t ≠ .nil) ∨ hasPrim t = true) →
      fieldsToStr base 0 pfx t first off buf = .err buf := by
  intro t
  induction t with
  | nil =>
    intro base pfx first off buf h
    rcases h with ⟨-, hne⟩ | hp
    · exact absurd rfl hne
    · simp [hasPrim] at hp
  | prim n v rest ih =>
    intro base pfx first off buf h
    simp only [fieldsToStr, sepStep_cap0]
    cases first
    · simp only [Bool.false_eq_true, reduceIte]
    · simp only [reduceIte]
      try dsimp only
      rw [if_pos (by simp [availOf_zero])]
      simp [defensiveTerm, availOf_zero, snprintfAt]
  | nest n sub rest ihs ihr =>
    intro base pfx first off buf h
    simp only [fieldsToStr, sepStep_cap0]
    cases first
    · simp only [Bool.false_eq_true, reduceIte]
    · simp only [reduceIte]
      try dsimp only
      have hp : hasPrim (Fields.nest n sub rest) = true := by
        rcases h with ⟨hf, -⟩ | hp
        · cases hf
        · exact hp
      simp only [hasPrim, Bool.or_eq_true] at hp
      rw [availOf_zero]
      cases hps : hasPrim sub with
      | true =>
        rw [ihs (base + off) (fieldFullName pfx n) true 0 buf (Or.inr hps)]
        simp [defensiveTerm]
      | false =>
        have hpr : hasPrim rest = true := by
          rcases hp with hp | hp
          · rw [hps] at hp; cases hp
          · exact hp
        have hin := fieldsToStr_cap0_buf sub (base + off) (fieldFullName pfx n) true 0 buf
        cases hsub : fieldsToStr (base + off) 0 (fieldFullName pfx n) sub true 0 buf with
        | err b2 =>
          rw [hsub] at hin
          simp only [RRes.bufOf] at hin
          simp [defensiveTerm, hin]
        | ok b2 o2 =>
          rw [hsub] at hin
          simp only [RRes.bufOf] at hin
          try dsimp only
          have hd : defensiveTerm (base + off) 0 o2 b2 = b2 := by
            simp [defensiveTerm]
          rw [hd, hin]
          exact ihr base pfx false (off + o2) buf (Or.inl ⟨rfl, hasPrim_ne_nil hpr⟩)

theorem writeChars_get?_lt (cs : List Char) :
    ∀ (buf : List Char) (i j : Nat), j < i → (writeChars buf i cs)[j]? = buf[j]? := by
  induction cs with
  | nil => intro buf i j h; rfl
  | cons c cs ih =>
    intro buf i j h
    rw [writeChars, ih _ _ _ (by omega), List.getElem?_set_ne (by omega)]

theorem writeChars_get?_in (cs : List Char) :
    ∀ (buf : List Char) (i k : Nat), k < cs.length → i + cs.length ≤ buf.length →
      (writeChars buf i cs)[i + k]? = cs[k]? := by
  induction cs with
  | nil => intro buf i k h; simp at h
  | cons c cs ih =>
    intro buf i k hk hlen
    simp only [List.length_cons] at hlen
    cases k with
    | zero =>
      rw [writeChars, writeChars_get?_lt cs _ _ _ (by omega)]
      have : (buf.set i c)[i]? = some c :=
        List.getElem?_set_eq_of_lt c (by omega)
      simpa using this
    | succ k =>
      rw [writeChars]
      have he : i + (k + 1) = (i + 1) + k := by omega
      rw [he]
      have := ih (buf.set i c) (i + 1) k (by simpa using hk) (by simp; omega)
      simpa using this

theorem availOf_eq {cap off : Nat} (h : off < cap) : availOf cap off = cap - off := by
  simp [availOf, h]

theorem snprintfAt_full {buf : List Char} {pos avail : Nat} {out : List Char}
    (h : out.length < avail) :
    snprintfAt buf pos avail out =
      (writeChars buf pos out).set (pos + out.length) nulChar := by
  unfold snprintfAt
  rw [if_neg (by omega)]
  have hk : min out.length (avail - 1) = out.length := by omega
  simp only [hk, List.take_length]

theorem sepStep_first (base cap off : Nat) (buf : List Char) :
    sepStep base cap true off buf = .ok buf off := rfl

theorem sepStep_fits {base cap off : Nat} (buf : List Char) (h : off < cap) :
    sepStep base cap false off buf = .ok (buf.set (base + off) spChar) (off + 1) := by
  simp [sepStep, h]

/-- Completeness: when the text fits strictly below the window capacity, the
field loop succeeds and advances the offset by the text length. -/
theorem fieldsToStr_fits_ok :
    ∀ (t : Fields) (base cap : Nat) (pfx : String) (first : Bool) (off : Nat)
      (buf : List Char),
      off + (fieldsText pfx first t).length < cap →
      ∃ b, fieldsToStr base cap pfx t first off buf =
        .ok b (off + (fieldsText pfx first t).length) := by
  intro t
  induction t with
  | nil =>
    intro base cap pfx first off buf h
    exact ⟨buf, by simp [fieldsToStr, fieldsText]⟩
  | prim n v rest ih =>
    intro base cap pfx first off buf h
    cases first with
    | true =>
      have hL : (fieldsText pfx true (Fields.prim n v rest)).length =
          (primText pfx n v).length + (fieldsText pfx false rest).length := by
        simp [fieldsText]
      rw [hL] at h ⊢
      have hcap : off < cap := by omega
      have havail : availOf cap off = cap - off := availOf_eq hcap
      have hres : ¬ availOf cap off ≤ (primText pfx n v).length := by omega
      obtain ⟨b, hb⟩ := ih base cap pfx false (off + (primText pfx n v).length)
        (snprintfAt buf (base + off) (availOf cap off) (primText pfx n v)) (by omega)
      refine ⟨b, ?_⟩
      simp only [fieldsToStr, sepStep_first]
      rw [if_neg hres, hb]
      congr 1
      omega
    | false =>
      have hL : (fieldsText pfx false (Fields.prim n v rest)).length =
          1 + ((primText pfx n v).length + (fieldsText pfx false rest).length) := by
        simp [fieldsText]
        try omega
      rw [hL] at h ⊢
      have hcap : off < cap := by omega
      have havail : availOf cap (off + 1) = cap - (off + 1) := availOf_eq (by omega)
      have hres : ¬ availOf cap (off + 1) ≤ (primText pfx n v).length := by omega
      obtain ⟨b, hb⟩ := ih base cap pfx false ((off + 1) + (primText pfx n v).length)
        (snprintfAt (buf.set (base + off) spChar) (base + (off + 1)) (availOf cap (off + 1))
          (primText pfx n v)) (by omega)
      refine ⟨b, ?_⟩
      simp only [fieldsToStr, sepStep_fits buf hcap]
      rw [if_neg hres, hb]
      congr 1
      omega
  | nest n sub rest ihs ihr =>
    intro base cap pfx first off buf h
    cases first with
    | true =>
      have hL : (fieldsText pfx true (Fields.nest n sub rest)).length =
          (fieldsText (fieldFullName pfx n) true sub).length
            + (fieldsText pfx false rest).length := by
        simp [fieldsText]
      rw [hL] at h ⊢
      have hoff : off < cap := by omega
      have havail : availOf cap off = cap - off := availOf_eq hoff
      obtain ⟨b2, hb2⟩ := ihs (base + off) (availOf cap off) (fieldFullName pfx n) true 0 buf
        (by omega)
      obtain ⟨b, hb⟩ := ihr base cap pfx false
        (off + (0 + (fieldsText (fieldFullName pfx n) true sub).length))
        (defensiveTerm (base + off) (availOf cap off)
          (0 + (fieldsText (fieldFullName pfx n) true sub).length) b2) (by omega)
      refine ⟨b, ?_⟩
      simp only [fieldsToStr, sepStep_first]
      rw [hb2]
      dsimp only
      rw [hb]
      congr 1
      omega
    | false =>
      have hL : (fieldsText pfx false (Fields.nest n sub rest)).length =
          1 + ((fieldsText (fieldFullName pfx n) true sub).length
            + (fieldsText pfx false rest).length) := by
        simp [fieldsText]
        try omega
      rw [hL] at h ⊢
      have hoff : off < cap := by omega
      have havail : availOf cap (off + 1) = cap - (off + 1) := availOf_eq (by omega)
      obtain ⟨b2, hb2⟩ := ihs (base + (off + 1)) (availOf cap (off + 1)) (fieldFullName pfx n)
        true 0 (buf.set (base + off) spChar) (by omega)
      obtain ⟨b, hb⟩ := ihr base cap pfx false
        ((off + 1) + (0 + (fieldsText (fieldFullName pfx n) true sub).length))
        (defensiveTerm (base + (off + 1)) (availOf cap (off + 1))
          (0 + (fieldsText (fieldFullName pfx n) true sub).length) b2) (by omega)
      refine ⟨b, ?_⟩
      simp only [fieldsToStr, sepStep_fits buf hoff]
      rw [hb2]
      dsimp only
      rw [hb]
      congr 1
      omega

theorem availOf_cases (cap off : Nat) :
    (off < cap ∧ availOf cap off = cap - off) ∨ (¬ off < cap ∧ availOf cap off = 0) := by
  by_cases hc : off < cap
  · exact Or.inl ⟨hc, availOf_eq hc⟩
  · refine Or.inr ⟨hc, ?_⟩
    simp [availOf]
    omega

/-- Soundness (content): a successful field-loop run whose final offset is
strictly below the window capacity has written exactly the field text into
the window and has left everything below the window start untouched. -/
theorem fieldsToStr_ok_content :
    ∀ (t : Fields) (base cap : Nat) (pfx : String) (first : Bool) (off : Nat)
      (buf b : List Char) (o : Nat),
      fieldsToStr base cap pfx t first off buf = .ok b o →
      o < cap → base + cap ≤ buf.length →
      (∀ i, i < (fieldsText pfx first t).length →
        b[base + off + i]? = (fieldsText pfx first t)[i]?) ∧
      (∀ j, j < base + off → b[j]? = buf[j]?) := by
  intro t
  induction t with
  | nil =>
    intro base cap pfx first off buf b o h ho hlen
    simp only [fieldsToStr] at h
    cases h
    exact ⟨fun i hi => by simp [fieldsText] at hi, fun j hj => rfl⟩
  | prim n v rest ih =>
    intro base cap pfx first off buf b o h ho hlen
    simp only [fieldsToStr] at h
    cases hsep : sepStep base cap first off buf with
    | err bx => rw [hsep] at h; cases h
    | ok b1 o1 =>
      rw [hsep] at h
      dsimp only at h
      split at h
      · cases h
      · next hres =>
        have hb1len : b1.length = buf.length := by
          have := length_sepStep base cap first off buf
          rw [hsep] at this
          simpa [RRes.bufOf] using this
        have hp : (primText pfx n v).length < availOf cap o1 := by omega
        rcases availOf_cases cap o1 with ⟨ho1cap, havail⟩ | ⟨-, havail⟩
        · rw [havail] at h hp
          rw [snprintfAt_full hp] at h
          have hoo := fieldsToStr_ok_off rest base cap pfx false
            (o1 + (primText pfx n v).length) _ b o h
          have hlen2 : base + cap ≤
              ((writeChars b1 (base + o1) (primText pfx n v)).set
                (base + o1 + (primText pfx n v).length) nulChar).length := by
            rw [List.length_set, length_writeChars]
            omega
          obtain ⟨Crest, Urest⟩ := ih base cap pfx false
            (o1 + (primText pfx n v).length) _ b o h ho hlen2
          rcases sepStep_ok hsep with ⟨hf, hb1, ho1⟩ | ⟨hf, hoffcap, hb1, ho1⟩ <;>
            subst hf <;> subst hb1 <;> subst ho1
          · -- first = true: o1 = off, b1 = buf
            constructor
            · intro i hi
              have ht : fieldsText pfx true (Fields.prim n v rest) =
                  primText pfx n v ++ fieldsText pfx false rest := by
                simp [fieldsText]
              rw [ht] at hi ⊢
              simp only [List.length_append] at hi
              by_cases hip : i < (primText pfx n v).length
              · rw [Urest _ (by omega), List.getElem?_set_ne (by omega),
                  writeChars_get?_in _ _ _ _ hip (by omega),
                  List.getElem?_append_left hip]
              · have he : base + o1 + i =
                    base + (o1 + (primText pfx n v).length) + (i - (primText pfx n v).length) := by
                  omega
                rw [he, Crest _ (by omega), List.getElem?_append_right (by omega)]
            · intro j hj
              rw [Urest _ (by omega), List.getElem?_set_ne (by omega),
                writeChars_get?_lt _ _ _ _ (by omega)]
          · -- first = false: o1 = off + 1, b1 = buf.set (base+off) spChar
            constructor
            · intro i hi
              have ht : fieldsText pfx false (Fields.prim n v rest) =
                  spChar :: (primText pfx n v ++ fieldsText pfx false rest) := by
                simp [fieldsText]
              rw [ht] at hi ⊢
              simp only [List.length_cons, List.length_append] at hi
              cases i with
              | zero =>
                have he : base + off + 0 = base + off := by omega
                rw [he, Urest _ (by omega), List.getElem?_set_ne (by omega),
                  writeChars_get?_lt _ _ _ _ (by omega),
                  List.getElem?_set_eq_of_lt _ (by omega)]
                simp
              | succ i =>
                by_cases hip : i < (primText pfx n v).length
                · have he : base + off + (i + 1) = base + (off + 1) + i := by omega
                  rw [he, Urest _ (by omega), List.getElem?_set_ne (by omega),
                    writeChars_get?_in _ _ _ _ hip (by omega)]
                  simp only [List.getElem?_cons_succ]
                  rw [List.getElem?_append_left hip]
                · have he : base + off + (i + 1) =
                      base + ((off + 1) + (primText pfx n v).length)
                        + (i - (primText pfx n v).length) := by
                    omega
                  rw [he, Crest _ (by omega)]
                  simp only [List.getElem?_cons_succ]
                  rw [List.getElem?_append_right (by omega)]
            · intro j hj
              rw [Urest _ (by omega), List.getElem?_set_ne (by omega),
                writeChars_get?_lt _ _ _ _ (by omega),
                List.getElem?_set_ne (by omega)]
        · rw [havail] at hp
          omega
  | nest n sub rest ihs ihr =>
    intro base cap pfx first off buf b o h ho hlen
    simp only [fieldsToStr] at h
    cases hsep : sepStep base cap first off buf with
    | err bx => rw [hsep] at h; cases h
    | ok b1 o1 =>
      rw [hsep] at h
      dsimp only at h
      cases hsub : fieldsToStr (base + o1) (availOf cap o1) (fieldFullName pfx n) sub
        true 0 b1 with
      | err b2 => rw [hsub] at h; cases h
      | ok b2 o2 =>
        rw [hsub] at h
        dsimp only at h
        have hb1len : b1.length = buf.length := by
          have := length_sepStep base cap first off buf
          rw [hsep] at this
          simpa [RRes.bufOf] using this
        have hb2len : b2.length = b1.length := by
          have := length_fieldsToStr sub (base + o1) (availOf cap o1)
            (fieldFullName pfx n) true 0 b1
          rw [hsub] at this
          simpa [RRes.bufOf] using this
        have ho2 := fieldsToStr_ok_off sub (base + o1) (availOf cap o1)
          (fieldFullName pfx n) true 0 b1 b2 o2 hsub
        simp only [Nat.zero_add] at ho2
        have hoo := fieldsToStr_ok_off rest base cap pfx false (o1 + o2) _ b o h
        have ho1cap : o1 < cap := by omega
        have havail := availOf_eq ho1cap
        have ho2avail : o2 < availOf cap o1 := by
          rw [havail]
          omega
        have hdt : defensiveTerm (base + o1) (availOf cap o1) o2 b2 =
            b2.set (base + o1 + o2) nulChar := by
          unfold defensiveTerm
          rw [if_pos ⟨by omega, ho2avail⟩]
        rw [hdt] at h
        have hlen3 : base + cap ≤ (b2.set (base + o1 + o2) nulChar).length := by
          rw [List.length_set]
          omega
        obtain ⟨Csub, Usub⟩ := ihs (base + o1) (availOf cap o1) (fieldFullName pfx n)
          true 0 b1 b2 o2 hsub ho2avail (by rw [havail]; omega)
        obtain ⟨Crest, Urest⟩ := ihr base cap pfx false (o1 + o2) _ b o h ho hlen3
        rcases sepStep_ok hsep with ⟨hf, hb1, ho1⟩ | ⟨hf, hoffcap, hb1, ho1⟩ <;>
          subst hf <;> subst hb1 <;> subst ho1
        · -- first = true
          constructor
          · intro i hi
            have ht : fieldsText pfx true (Fields.nest n sub rest) =
                fieldsText (fieldFullName pfx n) true sub ++ fieldsText pfx false rest := by
              simp [fieldsText]
            rw [ht] at hi ⊢
            simp only [List.length_append] at hi
            by_cases hip : i < (fieldsText (fieldFullName pfx n) true sub).length
            · have hCs := Csub i (by omega)
              have he2 : base + o1 + 0 + i = base + o1 + i := by omega
              rw [he2] at hCs
              rw [Urest _ (by omega), List.getElem?_set_ne (by omega), hCs,
                List.getElem?_append_left hip]
            · have he : base + o1 + i =
                  base + (o1 + o2) + (i - (fieldsText (fieldFullName pfx n) true sub).length) := by
                omega
              rw [he, Crest _ (by omega), List.getElem?_append_right (by omega)]
          · intro j hj
            rw [Urest _ (by omega), List.getElem?_set_ne (by omega), Usub _ (by omega)]
        · -- first = false
          constructor
          · intro i hi
            have ht : fieldsText pfx false (Fields.nest n sub rest) =
                spChar :: (fieldsText (fieldFullName pfx n) true sub
                  ++ fieldsText pfx false rest) := by
              simp [fieldsText]
            rw [ht] at hi ⊢
            simp only [List.length_cons, List.length_append] at hi
            cases i with
            | zero =>
              have he : base + off + 0 = base + off := by omega
              rw [he, Urest _ (by omega), List.getElem?_set_ne (by omega),
                Usub _ (by omega), List.getElem?_set_eq_of_lt _ (by omega)]
              simp
            | succ i =>
              by_cases hip : i < (fieldsText (fieldFullName pfx n) true sub).length
              · have hCs := Csub i (by omega)
                have he2 : base + (off + 1) + 0 + i = base + off + (i + 1) := by omega
                rw [he2] at hCs
                rw [Urest _ (by omega), List.getElem?_set_ne (by omega), hCs]
                simp only [List.getElem?_cons_succ]
                rw [List.getElem?_append_left hip]
              · have he : base + off + (i + 1) =
                    base + ((off + 1) + o2)
                      + (i - (fieldsText (fieldFullName pfx n) true sub).length) := by
                  omega
                rw [he, Crest _ (by omega)]
                simp only [List.getElem?_cons_succ]
                rw [List.getElem?_append_right (by omega)]
          · intro j hj
            rw [Urest _ (by omega), List.getElem?_set_ne (by omega), Usub _ (by omega),
              List.getElem?_set_ne (by omega)]

/-- Success inversion for the public renderer. -/
theorem to_str_ok_inv {buf : List Char} {cap : Nat} {t : Fields} {pfx : String} {N : Nat}
    (h : (to_str buf cap (some t) pfx).2 = (N : Int)) :
    fieldsToStr 0 cap pfx t true 0 buf = .ok ((fieldsToStr 0 cap pfx t true 0 buf).bufOf) N ∧
      (to_str buf cap (some t) pfx).1 =
        defensiveTerm 0 cap N ((fieldsToStr 0 cap pfx t true 0 buf).bufOf) := by
  unfold to_str at h ⊢
  dsimp only at h ⊢
  cases hres : fieldsToStr 0 cap pfx t true 0 buf with
  | err b =>
    rw [hres] at h
    simp only at h
    omega
  | ok b off =>
    rw [hres] at h
    simp only at h
    have : off = N := by exact_mod_cast h
    subst this
    exact ⟨by simp [RRes.bufOf], by simp [RRes.bufOf]⟩

/-- C2: after any render call with capacity at least 1 over a buffer at least
that large — whatever record reference (including NULL) and whether the call
succeeds or returns the error sentinel — the resulting buffer holds a NUL
byte at some index strictly below the capacity. -/
theorem c2_termination :
    ∀ (s : Option Fields) (pfx : String) (buf : List Char) (cap : Nat),
      1 ≤ cap → cap ≤ buf.length →
      ∃ i, i < cap ∧ ((to_str buf cap s pfx).1)[i]? = some nulChar := by
  intro s pfx buf cap hc hlen
  cases s with
  | none =>
    unfold to_str
    dsimp only
    rw [if_pos (by omega)]
    exact ⟨0, by omega, List.getElem?_set_eq_of_lt _ (by omega)⟩
  | some t =>
    unfold to_str
    dsimp only
    cases hres : fieldsToStr 0 cap pfx t true 0 buf with
    | err b =>
      have hn := fieldsToStr_err_nul t 0 cap pfx true 0 buf b hres (by omega) (by omega)
      simpa using hn
    | ok b off =>
      have hblen : b.length = buf.length := by
        have := length_fieldsToStr t 0 cap pfx true 0 buf
        rw [hres] at this
        simpa [RRes.bufOf] using this
      have hn := @defensiveTerm_nul 0 cap off b (by omega) (by omega)
      simpa using hn

/-- C3: rendering a NULL record reference with capacity ≥ 1 returns 0 and
stores the empty string (a NUL at index 0). -/
theorem c3_null_record :
    ∀ (pfx : String) (buf : List Char) (cap : Nat),
      1 ≤ cap → cap ≤ buf.length →
      (to_str buf cap none pfx).2 = 0 ∧
        ((to_str buf cap none pfx).1)[0]? = some nulChar := by
  intro pfx buf cap hc hlen
  unfold to_str
  dsimp only
  rw [if_pos (by omega)]
  exact ⟨rfl, List.getElem?_set_eq_of_lt _ (by omega)⟩

/-- C9: the renderer is a pure function of its inputs, so two calls with
identical record, prefix, buffer and capacity return identical results and
identical buffer contents. -/
theorem c9_determinism :
    ∀ (buf1 buf2 : List Char) (cap : Nat) (s : Option Fields) (pfx : String),
      buf1 = buf2 → to_str buf1 cap s pfx = to_str buf2 cap s pfx := by
  intro buf1 buf2 cap s pfx h
  rw [h]

/-- C1 (amended): a capacity-check call — NULL destination, capacity 0 — does
not return the sizing byte count: for every record containing at least one
primitive field it returns the error sentinel `-1`. -/
theorem c1_sizing_amended :
    ∀ (R : Fields) (pfx : String), hasPrim R = true →
      (to_str [] 0 (some R) pfx).2 = -1 := by
  intro R pfx h
  unfold to_str
  dsimp only
  rw [fieldsToStr_cap0_err R 0 pfx true 0 [] (Or.inr h)]

/-- C1 (counterexample): for the test-suite `Point` record and prefix
`"mypoint"` a NULL-destination capacity-0 call returns `-1`, while the byte
count of an unbounded render — which the claim says it must return — is 25. -/
theorem c1_sizing_counterexample :
    (to_str [] 0 (some (pointRec "10" "20")) "mypoint").2 = -1 ∧
      (to_str (List.replicate 26 nulChar) 26 (some (pointRec "10" "20")) "mypoint").2 = 25 := by
  constructor
  · decide
  · decide

/-- C5 (amended): if a render succeeds with result `N` strictly below its
capacity, any second render of the same record and prefix with capacity at
least `N + 1` returns the same `N` and writes the same first `N` bytes. -/
theorem c5_capacity_monotonicity_amended :
    ∀ (R : Fields) (pfx : String) (buf1 buf2 : List Char) (cap1 cap2 N : Nat),
      cap1 ≤ buf1.length → cap2 ≤ buf2.length →
      (to_str buf1 cap1 (some R) pfx).2 = (N : Int) → N < cap1 → N + 1 ≤ cap2 →
      (to_str buf2 cap2 (some R) pfx).2 = (N : Int) ∧
        ∀ i, i < N →
          (to_str buf2 cap2 (some R) pfx).1[i]? = (to_str buf1 cap1 (some R) pfx).1[i]? := by
  intro R pfx buf1 buf2 cap1 cap2 N hl1 hl2 h1 hN1 hN2
  obtain ⟨hok1, hbuf1⟩ := to_str_ok_inv h1
  have hLN := fieldsToStr_ok_off R 0 cap1 pfx true 0 buf1 _ N hok1
  simp only [Nat.zero_add] at hLN
  obtain ⟨b2, hok2⟩ := fieldsToStr_fits_ok R 0 cap2 pfx true 0 buf2 (by omega)
  simp only [Nat.zero_add] at hok2
  rw [← hLN] at hok2
  have hres2 : (to_str buf2 cap2 (some R) pfx).2 = (N : Int) := by
    unfold to_str
    dsimp only
    rw [hok2]
  refine ⟨hres2, ?_⟩
  intro i hi
  obtain ⟨C1, U1⟩ := fieldsToStr_ok_content R 0 cap1 pfx true 0 buf1 _ N hok1 hN1 (by omega)
  have hb2len : b2.length = buf2.length := by
    have := length_fieldsToStr R 0 cap2 pfx true 0 buf2
    rw [hok2] at this
    simpa [RRes.bufOf] using this
  obtain ⟨C2, U2⟩ := fieldsToStr_ok_content R 0 cap2 pfx true 0 buf2 b2 N hok2
    (by omega) (by omega)
  have hbuf2 : (to_str buf2 cap2 (some R) pfx).1 = defensiveTerm 0 cap2 N b2 := by
    unfold to_str
    dsimp only
    rw [hok2]
  have hdt1 : defensiveTerm 0 cap1 N ((fieldsToStr 0 cap1 pfx R true 0 buf1).bufOf) =
      ((fieldsToStr 0 cap1 pfx R true 0 buf1).bufOf).set (0 + N) nulChar := by
    unfold defensiveTerm
    rw [if_pos ⟨by omega, hN1⟩]
  have hdt2 : defensiveTerm 0 cap2 N b2 = b2.set (0 + N) nulChar := by
    unfold defensiveTerm
    rw [if_pos ⟨by omega, by omega⟩]
  rw [hbuf1, hbuf2, hdt1, hdt2, List.getElem?_set_ne (by omega),
    List.getElem?_set_ne (by omega)]
  have hC1 := C1 i (by omega)
  have hC2 := C2 i (by omega)
  simp only [Nat.zero_add] at hC1 hC2
  rw [hC1, hC2]

/-- C5 (counterexample): for the record `{int x = 1; struct {} e;}` with empty
prefix, a render at capacity 4 "succeeds" returning N = 4 (the buffer holds
`x=1` and a NUL), yet a render at capacity 6 ≥ N+1 also returns 4 while its
byte at index 3 is a space, not the NUL the capacity-4 buffer holds there —
so the first N bytes differ and the claim as stated fails. -/
theorem c5_capacity_monotonicity_counterexample :
    (to_str (List.replicate 4 spChar) 4
        (some (.prim "x" "1" (.nest "e" .nil .nil))) "").2 = (4 : Int) ∧
      (to_str (List.replicate 6 spChar) 6
        (some (.prim "x" "1" (.nest "e" .nil .nil))) "").2 = (4 : Int) ∧
      (to_str (List.replicate 6 spChar) 6
          (some (.prim "x" "1" (.nest "e" .nil .nil))) "").1[3]? ≠
        (to_str (List.replicate 4 spChar) 4
          (some (.prim "x" "1" (.nest "e" .nil .nil))) "").1[3]? := by
  refine ⟨by decide, by decide, by decide⟩

/-- C6: rendering the test-suite `Line` value with prefix `"myline"` into any
buffer of capacity at least 90 returns 89 and stores exactly
`myline.start.x=10 myline.start.y=20 myline.end.x=30 myline.end.y=40 myline.label=MainLine`
followed by a NUL terminator. -/
theorem c6_line_scenario :
    ∀ (buf : List Char) (cap : Nat), 90 ≤ cap → cap ≤ buf.length →
      (to_str buf cap (some lineRec) "myline").2 = (89 : Int) ∧
        (∀ i, i < 89 →
          (to_str buf cap (some lineRec) "myline").1[i]? = lineExpected.data[i]?) ∧
        (to_str buf cap (some lineRec) "myline").1[89]? = some nulChar := by
  intro buf cap hc hlen
  have htext : fieldsText "myline" true lineRec = lineExpected.data := by decide
  have hlen89 : (fieldsText "myline" true lineRec).length = 89 := by
    rw [htext]
    decide
  obtain ⟨b, hok⟩ := fieldsToStr_fits_ok lineRec 0 cap "myline" true 0 buf (by omega)
  simp only [Nat.zero_add, hlen89] at hok
  have hblen : b.length = buf.length := by
    have := length_fieldsToStr lineRec 0 cap "myline" true 0 buf
    rw [hok] at this
    simpa [RRes.bufOf] using this
  obtain ⟨C, U⟩ := fieldsToStr_ok_content lineRec 0 cap "myline" true 0 buf b 89 hok
    (by omega) (by omega)
  have hbuf : (to_str buf cap (some lineRec) "myline").1 = defensiveTerm 0 cap 89 b := by
    unfold to_str
    dsimp only
    rw [hok]
  have hres : (to_str buf cap (some lineRec) "myline").2 = (89 : Int) := by
    unfold to_str
    dsimp only
    rw [hok]
    simp
  have hdt : defensiveTerm 0 cap 89 b = b.set (0 + 89) nulChar := by
    unfold defensiveTerm
    rw [if_pos ⟨by omega, by omega⟩]
  refine ⟨hres, ?_, ?_⟩
  · intro i hi
    rw [hbuf, hdt, List.getElem?_set_ne (by omega)]
    have hCi := C i (by omega)
    simp only [Nat.zero_add] at hCi
    rw [hCi, htext]
  · rw [hbuf, hdt]
    have h89 : (0 : Nat) + 89 = 89 := by omega
    rw [h89]
    exact List.getElem?_set_eq_of_lt _ (by omega)

/-- Witness for C2 at a concrete record, prefix and 4-byte buffer. -/
theorem c2_termination_witness :
    ∃ i, i < 4 ∧
      ((to_str (List.replicate 4 spChar) 4 (some (pointRec "10" "20")) "p").1)[i]? =
        some nulChar :=
  c2_termination (some (pointRec "10" "20")) "p" (List.replicate 4 spChar) 4
    (by decide) (by decide)

/-- Witness for C3: NULL record, capacity 16 (spec scenario 4). -/
theorem c3_null_record_witness :
    (to_str (List.replicate 16 spChar) 16 none "p").2 = 0 ∧
      ((to_str (List.replicate 16 spChar) 16 none "p").1)[0]? = some nulChar :=
  c3_null_record "p" (List.replicate 16 spChar) 16 (by decide) (by decide)

/-- Witness for C9 at a concrete input. -/
theorem c9_determinism_witness :
    to_str (List.replicate 2 spChar) 2 (some (pointRec "1" "2")) "q" =
      to_str (List.replicate 2 spChar) 2 (some (pointRec "1" "2")) "q" :=
  c9_determinism (List.replicate 2 spChar) (List.replicate 2 spChar) 2
    (some (pointRec "1" "2")) "q" rfl

/-- Witness for the amended C1 at the test-suite `Point` record. -/
theorem c1_sizing_amended_witness :
    (to_str [] 0 (some (pointRec "10" "20")) "mypoint").2 = -1 :=
  c1_sizing_amended (pointRec "10" "20") "mypoint" (by decide)

/-- Witness for the amended C5: `Point` at capacities 10 and 12, N = 9. -/
theorem c5_capacity_monotonicity_amended_witness :
    (to_str (List.replicate 12 spChar) 12 (some (pointRec "10" "20")) "").2 = ((9 : Nat) : Int) ∧
      ∀ i, i < 9 →
        (to_str (List.replicate 12 spChar) 12 (some (pointRec "10" "20")) "").1[i]? =
          (to_str (List.replicate 10 spChar) 10 (some (pointRec "10" "20")) "").1[i]? :=
  c5_capacity_monotonicity_amended (pointRec "10" "20") "" (List.replicate 10 spChar)
    (List.replicate 12 spChar) 10 12 9 (by decide) (by decide) (by decide)
    (by decide) (by decide)

/-- Witness for C6 at a buffer of exactly 90 bytes. -/
theorem c6_line_scenario_witness :
    (to_str (List.replicate 90 spChar) 90 (some lineRec) "myline").2 = (89 : Int) ∧
      (∀ i, i < 89 →
        (to_str (List.replicate 90 spChar) 90 (some lineRec) "myline").1[i]? =
          lineExpected.data[i]?) ∧
      (to_str (List.replicate 90 spChar) 90 (some lineRec) "myline").1[89]? = some nulChar :=
  c6_line_scenario (List.replicate 90 spChar) 90 (by decide) (by decide)

/-! ### Token lemmas for the prefix law -/

theorem string_length_pos {s : String} (h : s ≠ "") : 0 < s.length := by
  cases s with
  | mk data =>
    cases data with
    | nil => exact absurd rfl h
    | cons c cs => simp [String.length]

theorem str_append_dot_ne (P Q : String) : P ++ "." ++ Q ≠ "" := by
  intro h
  have hl : (P ++ "." ++ Q).length = 0 := by rw [h]; rfl
  rw [String.length_append, String.length_append] at hl
  have hdot : ("." : String).length = 1 := rfl
  omega

theorem take255_short {s : String} (h : s.length ≤ 255) : take255 s = s := by
  unfold take255
  rw [List.take_of_length_le h]

theorem specName_empty (n : String) : specName "" n = n := by
  unfold specName
  rw [if_pos rfl]

theorem specName_ne {P : String} (n : String) (hP : P ≠ "") :
    specName P n = P ++ "." ++ n := by
  unfold specName
  rw [if_neg hP]

theorem fieldFullName_eq_specName {pfx n : String} (h : (specName pfx n).length ≤ 255) :
    fieldFullName pfx n = specName pfx n := by
  by_cases hp : pfx = ""
  · subst hp
    rw [specName_empty n] at h ⊢
    unfold fieldFullName
    rw [if_pos rfl]
    exact take255_short h
  · rw [specName_ne n hp] at h ⊢
    unfold fieldFullName
    rw [if_neg hp]
    exact take255_short h

theorem specName_le_mono {Q Qp : String} (n : String) (h : Q.length ≤ Qp.length) :
    (specName Q n).length ≤ (specName Qp n).length := by
  by_cases hq : Q = ""
  · by_cases hqp : Qp = ""
    · rw [hq, hqp]
    · rw [hq, specName_empty, specName_ne n hqp, String.length_append,
        String.length_append]
      omega
  · have hqlen := string_length_pos hq
    have hqp : Qp ≠ "" := by
      intro he
      have : Qp.length = 0 := by rw [he]; rfl
      omega
    rw [specName_ne n hq, specName_ne n hqp, String.length_append,
      String.length_append, String.length_append, String.length_append]
    omega

theorem pathsFit_mono :
    ∀ (t : Fields) (Q Qp : String), Q.length ≤ Qp.length → pathsFit Qp t = true →
      pathsFit Q t = true := by
  intro t
  induction t with
  | nil => intro Q Qp hl h; rfl
  | prim n v rest ih =>
    intro Q Qp hl h
    simp only [pathsFit, Bool.and_eq_true, decide_eq_true_eq] at h ⊢
    obtain ⟨h1, h2⟩ := h
    exact ⟨le_trans (specName_le_mono n hl) h1, ih Q Qp hl h2⟩
  | nest n sub rest ihs ihr =>
    intro Q Qp hl h
    simp only [pathsFit, Bool.and_eq_true, decide_eq_true_eq] at h ⊢
    obtain ⟨⟨h1, h2⟩, h3⟩ := h
    exact ⟨⟨le_trans (specName_le_mono n hl) h1,
      ihs _ _ (specName_le_mono n hl) h2⟩, ihr Q Qp hl h3⟩

/-- Successful bounded render (strict slack) returns the text length and the
text itself as the leading buffer bytes. -/
theorem to_str_fits (R : Fields) (pfx : String) (buf : List Char) (cap : Nat)
    (hfit : (fieldsText pfx true R).length < cap) (hlen : cap ≤ buf.length) :
    (to_str buf cap (some R) pfx).2 = ((fieldsText pfx true R).length : Int) ∧
      ∀ i, i < (fieldsText pfx true R).length →
        (to_str buf cap (some R) pfx).1[i]? = (fieldsText pfx true R)[i]? := by
  obtain ⟨b, hok⟩ := fieldsToStr_fits_ok R 0 cap pfx true 0 buf (by omega)
  simp only [Nat.zero_add] at hok
  have hblen : b.length = buf.length := by
    have := length_fieldsToStr R 0 cap pfx true 0 buf
    rw [hok] at this
    simpa [RRes.bufOf] using this
  obtain ⟨C, U⟩ := fieldsToStr_ok_content R 0 cap pfx true 0 buf b _ hok (by omega) (by omega)
  have hbuf : (to_str buf cap (some R) pfx).1 =
      defensiveTerm 0 cap (fieldsText pfx true R).length b := by
    unfold to_str
    dsimp only
    rw [hok]
  have hres : (to_str buf cap (some R) pfx).2 = ((fieldsText pfx true R).length : Int) := by
    unfold to_str
    dsimp only
    rw [hok]
  have hdt : defensiveTerm 0 cap (fieldsText pfx true R).length b =
      b.set (0 + (fieldsText pfx true R).length) nulChar := by
    unfold defensiveTerm
    rw [if_pos ⟨by omega, by omega⟩]
  refine ⟨hres, fun i hi => ?_⟩
  rw [hbuf, hdt, List.getElem?_set_ne (by omega)]
  have hCi := C i (by omega)
  simpa using hCi

/-! ### Segment lemmas for the prefix law -/

theorem segsText_append :
    ∀ (a b : List Seg), segsText (a ++ b) = segsText a ++ segsText b := by
  intro a
  induction a with
  | nil => intro b; rfl
  | cons s a ih => intro b; simp [segsText, ih, List.append_assoc]

theorem string_data_append (s t : String) : (s ++ t).data = s.data ++ t.data := rfl

/-- The rendered text is the flattening of its segment decomposition (no
side conditions: empty nested records contribute empty segment runs). -/
theorem fieldsText_eq_segsText :
    ∀ (t : Fields) (pfx : String) (first : Bool),
      fieldsText pfx first t = segsText (fieldsSegs pfx first t) := by
  intro t
  induction t with
  | nil => intro pfx first; rfl
  | prim n v rest ih =>
    intro pfx first
    have hp : primText pfx n v = (fieldFullName pfx n).data ++ '=' :: v.data := by
      show (fieldFullName pfx n ++ "=" ++ v).data = _
      simp [string_data_append, List.append_assoc]
    cases first <;>
      simp [fieldsText, fieldsSegs, segsText, segText, segsText_append, ih, hp,
        List.append_assoc]
  | nest n sub rest ihs ihr =>
    intro pfx first
    cases first <;>
      simp [fieldsText, fieldsSegs, segsText, segText, segsText_append, ihs, ihr,
        List.append_assoc]

/-- When every dotted path fits the 255-character name buffer, the code's
segments are the spec's segments. -/
theorem fieldsSegs_eq_specSegs :
    ∀ (t : Fields) (pfx : String), pathsFit pfx t = true → ∀ (first : Bool),
      fieldsSegs pfx first t = specSegs pfx first t := by
  intro t
  induction t with
  | nil => intro pfx h first; rfl
  | prim n v rest ih =>
    intro pfx h first
    simp only [pathsFit, Bool.and_eq_true, decide_eq_true_eq] at h
    obtain ⟨h1, h2⟩ := h
    simp only [fieldsSegs, specSegs, fieldFullName_eq_specName h1, ih pfx h2]
  | nest n sub rest ihs ihr =>
    intro pfx h first
    simp only [pathsFit, Bool.and_eq_true, decide_eq_true_eq] at h
    obtain ⟨⟨h1, h2⟩, h3⟩ := h
    simp only [fieldsSegs, specSegs, fieldFullName_eq_specName h1,
      ihs (specName pfx n) h2, ihr pfx h3]

theorem specSegs_shift :
    ∀ (sub : Fields) (P Q : String), Q ≠ "" → ∀ (first : Bool),
      specSegs (P ++ "." ++ Q) first sub =
        (specSegs Q first sub).map (prefixSeg P) := by
  intro sub
  induction sub with
  | nil => intro P Q hQ first; rfl
  | prim n v rest ih =>
    intro P Q hQ first
    have hs1 : specName (P ++ "." ++ Q) n = P ++ "." ++ (Q ++ "." ++ n) := by
      rw [specName_ne n (str_append_dot_ne P Q)]
      simp [String.append_assoc]
    have hs2 : specName Q n = Q ++ "." ++ n := specName_ne n hQ
    cases first <;>
      simp [specSegs, hs1, hs2, prefixSeg, ih P Q hQ]
  | nest n sub2 rest ihs ihr =>
    intro P Q hQ first
    have hs1 : specName (P ++ "." ++ Q) n = P ++ "." ++ (Q ++ "." ++ n) := by
      rw [specName_ne n (str_append_dot_ne P Q)]
      simp [String.append_assoc]
    have hs2 : specName Q n = Q ++ "." ++ n := specName_ne n hQ
    cases first <;>
      simp [specSegs, hs1, hs2, prefixSeg, ihr P Q hQ,
        ihs P (Q ++ "." ++ n) (str_append_dot_ne Q n)]

/-- Prefixing law on segments: for a non-empty prefix and non-empty field
names, the spec segments under `P` are the empty-prefix segments with every
key segment prefixed by `P.` — for every record, including those with empty
nested records. -/
theorem specSegs_prefixed :
    ∀ (t : Fields) (P : String), P ≠ "" → goodNames t = true → ∀ (first : Bool),
      specSegs P first t = (specSegs "" first t).map (prefixSeg P) := by
  intro t
  induction t with
  | nil => intro P hP h first; rfl
  | prim n v rest ih =>
    intro P hP h first
    simp only [goodNames, Bool.and_eq_true, decide_eq_true_eq] at h
    obtain ⟨h1, h2⟩ := h
    cases first <;>
      simp [specSegs, specName_ne n hP, specName_empty, prefixSeg, ih P hP h2]
  | nest n sub rest ihs ihr =>
    intro P hP h first
    simp only [goodNames, Bool.and_eq_true, decide_eq_true_eq] at h
    obtain ⟨⟨h1, h2⟩, h3⟩ := h
    cases first <;>
      simp [specSegs, specName_ne n hP, specName_empty, prefixSeg, ihr P hP h3,
        specSegs_shift sub P n h1]

/-- C4 (amended): for every record with non-empty field names and non-empty
prefix `P` whose dotted paths all fit the 255-character `field_full_name`
buffer, and sufficient capacity on both sides, `render(R, "")` outputs the
flattened spec segments of `R` and `render(R, P)` outputs the same segments
with every key segment prefixed by `P.` — exactly the claim's transform,
valid also for records containing empty nested records. -/
theorem c4_prefix_law_amended :
    ∀ (R : Fields) (P : String) (buf1 buf2 : List Char) (cap1 cap2 : Nat),
      P ≠ "" → goodNames R = true → pathsFit P R = true →
      (fieldsText P true R).length < cap1 → cap1 ≤ buf1.length →
      (fieldsText "" true R).length < cap2 → cap2 ≤ buf2.length →
      ((to_str buf2 cap2 (some R) "").2 =
          ((segsText (specSegs "" true R)).length : Int) ∧
        (∀ i, i < (segsText (specSegs "" true R)).length →
          (to_str buf2 cap2 (some R) "").1[i]? = (segsText (specSegs "" true R))[i]?)) ∧
      ((to_str buf1 cap1 (some R) P).2 =
          ((segsText ((specSegs "" true R).map (prefixSeg P))).length : Int) ∧
        (∀ i, i < (segsText ((specSegs "" true R).map (prefixSeg P))).length →
          (to_str buf1 cap1 (some R) P).1[i]? =
            (segsText ((specSegs "" true R).map (prefixSeg P)))[i]?)) := by
  intro R P buf1 buf2 cap1 cap2 hP hgn hfit hc1 hl1 hc2 hl2
  have hfit0 : pathsFit "" R = true := pathsFit_mono R "" P (Nat.zero_le _) hfit
  have htok2 : fieldsText "" true R = segsText (specSegs "" true R) := by
    rw [fieldsText_eq_segsText, fieldsSegs_eq_specSegs R "" hfit0]
  have htok1 : fieldsText P true R =
      segsText ((specSegs "" true R).map (prefixSeg P)) := by
    rw [fieldsText_eq_segsText, fieldsSegs_eq_specSegs R P hfit,
      specSegs_prefixed R P hP hgn]
  constructor
  · have hr := to_str_fits R "" buf2 cap2 hc2 hl2
    rw [htok2] at hr
    exact hr
  · have hr := to_str_fits R P buf1 cap1 hc1 hl1
    rw [htok1] at hr
    exact hr

set_option maxRecDepth 40000 in
/-- C4 (counterexample): with the 260-character prefix `a…a` and the record
`{int x = 10;}`, a render with ample capacity returns 258 — the code
truncates the dotted path to 255 characters — while the claim ("render(R,P)
equals render(R,\"\") with every key segment prefixed by P.") predicts output
length 265; so the claim as stated fails. -/
theorem c4_prefix_law_counterexample :
    (to_str (List.replicate 270 nulChar) 270 (some (.prim "x" "10" .nil))
        (String.mk (List.replicate 260 'a'))).2 ≠
      ((segsText ((specSegs "" true (.prim "x" "10" .nil)).map
        (prefixSeg (String.mk (List.replicate 260 'a'))))).length : Int) := by
  decide

/-- Witness for the amended C4 at the `Point` record with prefix
`"mypoint"`. -/
theorem c4_prefix_law_amended_witness :
    ((to_str (List.replicate 12 nulChar) 12 (some (pointRec "10" "20")) "").2 =
        ((segsText (specSegs "" true (pointRec "10" "20"))).length : Int) ∧
      (∀ i, i < (segsText (specSegs "" true (pointRec "10" "20"))).length →
        (to_str (List.replicate 12 nulChar) 12 (some (pointRec "10" "20")) "").1[i]? =
          (segsText (specSegs "" true (pointRec "10" "20")))[i]?)) ∧
    ((to_str (List.replicate 30 nulChar) 30 (some (pointRec "10" "20")) "mypoint").2 =
        ((segsText ((specSegs "" true (pointRec "10" "20")).map
          (prefixSeg "mypoint"))).length : Int) ∧
      (∀ i, i < (segsText ((specSegs "" true (pointRec "10" "20")).map
          (prefixSeg "mypoint"))).length →
        (to_str (List.replicate 30 nulChar) 30 (some (pointRec "10" "20")) "mypoint").1[i]? =
          (segsText ((specSegs "" true (pointRec "10" "20")).map
            (prefixSeg "mypoint")))[i]?)) :=
  c4_prefix_law_amended (pointRec "10" "20") "mypoint" (List.replicate 30 nulChar)
    (List.replicate 12 nulChar) 30 12 (by decide) (by decide) (by decide)
    (by decide) (by decide) (by decide) (by decide)


/-! ### Formatter lemmas -/

theorem logfmtToken_decomp (k v : String) :
    logfmtToken k v = (k.data ++ '=' :: '"' :: escapeValue v.data) ++ ['"'] := by
  unfold logfmtToken
  simp [List.append_assoc]

theorem appendPair_eq (buf : List Char) (k v : String) :
    appendPair buf k v =
      (if buf ≠ [] ∧ buf.getLast? ≠ some spChar then buf ++ [spChar] else buf)
        ++ logfmtToken k v := by
  unfold appendPair logfmtToken
  simp [List.append_assoc]

theorem getLast_append_token (X : List Char) (k v : String) :
    (X ++ logfmtToken k v).getLast? = some '"' := by
  rw [logfmtToken_decomp, ← List.append_assoc, List.getLast?_concat]

theorem append_token_ne_nil (X : List Char) (k v : String) :
    X ++ logfmtToken k v ≠ [] := by
  rw [logfmtToken_decomp, ← List.append_assoc]
  simp

theorem logfmtTokens_cons {kv : String × String} {kvs : List (String × String)}
    (h : kvs ≠ []) :
    logfmtTokens (kv :: kvs) = logfmtToken kv.1 kv.2 ++ spChar :: logfmtTokens kvs := by
  cases kvs with
  | nil => exact absurd rfl h
  | cons kv2 kvs => simp [logfmtTokens]

/-- The emit loop on an all-non-NULL pair list: one leading separator when
the accumulated buffer is non-empty and does not end in a space, then the
joined tokens. -/
theorem formatLoop_tokens :
    ∀ (kvs : List (String × String)) (buf : List Char), kvs ≠ [] →
      formatLoop buf (kvs.map fun kv => (some kv.1, some kv.2)) =
        (if buf ≠ [] ∧ buf.getLast? ≠ some spChar then buf ++ [spChar] else buf)
          ++ logfmtTokens kvs := by
  intro kvs
  induction kvs with
  | nil => intro buf h; exact absurd rfl h
  | cons kv kvs ih =>
    intro buf h
    cases kvs with
    | nil =>
      show formatLoop (appendPair buf kv.1 kv.2) [] = _
      rw [show formatLoop (appendPair buf kv.1 kv.2) [] = appendPair buf kv.1 kv.2 from rfl,
        appendPair_eq]
      simp [logfmtTokens]
    | cons kv2 kvs =>
      rw [List.map_cons,
        show formatLoop buf ((some kv.1, some kv.2) :: (kv2 :: kvs).map
            (fun kv => (some kv.1, some kv.2))) =
          formatLoop (appendPair buf kv.1 kv.2) ((kv2 :: kvs).map
            (fun kv => (some kv.1, some kv.2))) from rfl,
        ih _ (by simp), appendPair_eq buf kv.1 kv.2,
        if_pos ⟨append_token_ne_nil _ kv.1 kv.2, by
          rw [getLast_append_token]
          decide⟩,
        @logfmtTokens_cons kv (kv2 :: kvs) (by simp)]
      simp [List.append_assoc]

/-! ### Collapsing the bounded formatter onto the line text -/

theorem strcatB_fitted (size : Nat) (X cs : List Char) :
    strcatB size (fitted size X) cs = fitted size (X ++ cs) := by
  unfold fitted
  by_cases h : X.length + 1 ≤ size
  · rw [if_pos h]
    show (if X.length + cs.length + 1 ≤ size then some (X ++ cs) else none) = _
    rw [List.length_append]
  · rw [if_neg h]
    rw [List.length_append, if_neg (by omega)]
    rfl

theorem escLoopB_fitted (size : Nat) :
    ∀ (cs X : List Char),
      escLoopB size (fitted size X) cs = fitted size (X ++ escapeValue cs) := by
  intro cs
  induction cs with
  | nil =>
    intro X
    show fitted size X = _
    rw [show escapeValue [] = [] from rfl, List.append_nil]
  | cons c cs ih =>
    intro X
    show escLoopB size (strcatB size (fitted size X) (escChunk c)) cs = _
    rw [strcatB_fitted, ih (X ++ escChunk c),
      show escapeValue (c :: cs) = escChunk c ++ escapeValue cs from rfl,
      List.append_assoc]

theorem escLoopB_none (size : Nat) :
    ∀ cs, escLoopB size none cs = none := by
  intro cs
  induction cs with
  | nil => rfl
  | cons c cs ih =>
    show escLoopB size (strcatB size none (escChunk c)) cs = none
    exact ih

theorem appendPairB_none (size : Nat) (k v : String) :
    appendPairB size none k v = none := by
  show strcatB size (escLoopB size (strcatB size (strcatB size none k.data) ['=', '"'])
    v.data) ['"'] = none
  rw [show strcatB size none k.data = none from rfl,
    show strcatB size none ['=', '"'] = none from rfl, escLoopB_none]
  rfl

theorem appendPair_length_ge (b : List Char) (k v : String) :
    b.length ≤ (appendPair b k v).length := by
  unfold appendPair
  by_cases hc : b ≠ [] ∧ b.getLast? ≠ some spChar
  · rw [if_pos hc]
    simp only [List.length_append, List.length_cons]
    omega
  · rw [if_neg hc]
    simp only [List.length_append, List.length_cons]
    omega

theorem appendPairB_fitted (size : Nat) (X : List Char) (k v : String) :
    appendPairB size (fitted size X) k v = fitted size (appendPair X k v) := by
  by_cases h : X.length + 1 ≤ size
  · have hf : fitted size X = some X := if_pos h
    have hb1 :
        (if X ≠ [] ∧ X.getLast? ≠ some spChar then strcatB size (some X) [spChar]
          else some X) =
          fitted size
            (if X ≠ [] ∧ X.getLast? ≠ some spChar then X ++ [spChar] else X) := by
      by_cases hc : X ≠ [] ∧ X.getLast? ≠ some spChar
      · rw [if_pos hc, if_pos hc, ← hf, strcatB_fitted]
      · rw [if_neg hc, if_neg hc, hf]
    rw [hf]
    show strcatB size (escLoopB size (strcatB size (strcatB size
        (if X ≠ [] ∧ X.getLast? ≠ some spChar then strcatB size (some X) [spChar]
          else some X) k.data) ['=', '"']) v.data) ['"'] = _
    rw [hb1, strcatB_fitted, strcatB_fitted, escLoopB_fitted, strcatB_fitted]
    have he :
        ((((if X ≠ [] ∧ X.getLast? ≠ some spChar then X ++ [spChar] else X) ++ k.data)
          ++ ['=', '"']) ++ escapeValue v.data) ++ ['"'] = appendPair X k v := by
      unfold appendPair
      simp [List.append_assoc]
    rw [he]
  · have hf : fitted size X = none := if_neg h
    rw [hf, appendPairB_none]
    unfold fitted
    rw [if_neg (by have := appendPair_length_ge X k v; omega)]

theorem formatLoopB_fitted (size : Nat) :
    ∀ (pairs : List (Option String × Option String)) (X : List Char),
      formatLoopB size (fitted size X) pairs = fitted size (formatLoop X pairs) := by
  intro pairs
  induction pairs with
  | nil => intro X; rfl
  | cons p rest ih =>
    intro X
    obtain ⟨p1, p2⟩ := p
    cases p1 with
    | none => cases p2 <;> exact ih X
    | some a =>
      cases p2 with
      | none => exact ih X
      | some b =>
        show formatLoopB size (appendPairB size (fitted size X) a b) rest =
          fitted size (formatLoop (appendPair X a b) rest)
        rw [appendPairB_fitted]
        exact ih (appendPair X a b)

theorem requiredSize_pos (msg : Option String)
    (pairs : List (Option String × Option String)) :
    1 ≤ requiredSize msg pairs := by
  unfold requiredSize
  omega

/-- The bounded formatter collapses onto the line text: the run either
produces exactly the text of the `strcat` sequence (when that text and its
NUL terminator fit the `required_size` allocation) or performs an
out-of-bounds write (`none`). -/
theorem format_logfmt_eq (msg : Option String)
    (pairs : List (Option String × Option String)) :
    format_logfmt msg pairs =
      fitted (requiredSize msg pairs) (lineText msg pairs) := by
  cases msg with
  | none =>
    show formatLoopB (requiredSize none pairs) (some []) pairs = _
    have hb0 : (some ([] : List Char)) = fitted (requiredSize none pairs) [] := by
      unfold fitted
      rw [if_pos (by simpa using requiredSize_pos none pairs)]
    rw [hb0, formatLoopB_fitted]
    rfl
  | some m =>
    show formatLoopB (requiredSize (some m) pairs)
        (if m.length + 1 ≤ requiredSize (some m) pairs then some m.data else none)
        pairs = _
    rw [show (if m.length + 1 ≤ requiredSize (some m) pairs then some m.data
          else none) = fitted (requiredSize (some m) pairs) m.data from rfl,
      formatLoopB_fitted]
    rfl

/-- C7 (amended): for a non-empty all-non-NULL pair list whose built line
(plus its NUL terminator) fits the `required_size` allocation,
`format_logfmt` returns the user message verbatim, then one separating
space exactly when the message is non-empty and does not already end in a
space, then the `key="value"` tokens (with `"` escaped as `\"` and `\` as
`\\` inside values) separated by single spaces.  The fit hypothesis is a
real restriction: `required_size` reserves no bytes for escape expansion,
so a pair list whose escaped values grow by two or more bytes makes the C
code write past its allocation, modelled as `none`. -/
theorem c7_logfmt_amended :
    ∀ (msg : String) (kvs : List (String × String)), kvs ≠ [] →
      (lineText (some msg) (kvs.map fun kv => (some kv.1, some kv.2))).length + 1 ≤
        requiredSize (some msg) (kvs.map fun kv => (some kv.1, some kv.2)) →
      format_logfmt (some msg) (kvs.map fun kv => (some kv.1, some kv.2)) =
        some (msg.data ++
          (if msg.data ≠ [] ∧ msg.data.getLast? ≠ some spChar then [spChar] else []) ++
          logfmtTokens kvs) := by
  intro msg kvs h hfit
  rw [format_logfmt_eq]
  unfold fitted
  rw [if_pos hfit]
  congr 1
  show formatLoop msg.data (kvs.map fun kv => (some kv.1, some kv.2)) = _
  rw [formatLoop_tokens kvs msg.data h]
  by_cases hc : msg.data ≠ [] ∧ msg.data.getLast? ≠ some spChar
  · rw [if_pos hc, if_pos hc]
  · rw [if_neg hc, if_neg hc]
    simp

/-- C7 (counterexample): with user message `"m "` (ending in a space) and one
pair, the formatter emits `m k="v"` — no separator is inserted — while the
claim ("the user message verbatim, then a single space, then the tokens")
predicts `m  k="v"` with two consecutive spaces. -/
theorem c7_logfmt_counterexample :
    format_logfmt (some "m ") [(some "k", some "v")] = some (("m k=\"v\"").data) ∧
      format_logfmt (some "m ") [(some "k", some "v")] ≠
        some (("m " ++ " " ++ "k=\"v\"").data) := by
  constructor
  · decide
  · decide

/-- Witness for the amended C7 (spec scenario 6 message and pairs; the line
is 23 bytes and the allocation 25, so the fit hypothesis holds). -/
theorem c7_logfmt_amended_witness :
    format_logfmt (some "bad thing 7")
        ([("x", "1"), ("y", "2")].map fun kv => (some kv.1, some kv.2)) =
      some (("bad thing 7").data ++
        (if ("bad thing 7").data ≠ [] ∧ ("bad thing 7").data.getLast? ≠ some spChar
          then [spChar] else []) ++
        logfmtTokens [("x", "1"), ("y", "2")]) :=
  c7_logfmt_amended "bad thing 7" [("x", "1"), ("y", "2")] (by simp) (by decide)

theorem formatLoop_skip {p : Option String × Option String}
    (hp : p.1 = none ∨ p.2 = none) :
    ∀ (l : List (Option String × Option String)) (buf : List Char),
      formatLoop buf (p :: l) = formatLoop buf l := by
  intro l buf
  obtain ⟨p1, p2⟩ := p
  rcases hp with h1 | h2
  · simp only at h1
    subst h1
    cases p2 <;> rfl
  · simp only at h2
    subst h2
    cases p1 <;> rfl

theorem pairsSize_skip {p : Option String × Option String}
    (hp : p.1 = none ∨ p.2 = none) :
    ∀ (l : List (Option String × Option String)), pairsSize (p :: l) = pairsSize l := by
  intro l
  obtain ⟨p1, p2⟩ := p
  rcases hp with h1 | h2
  · simp only at h1
    subst h1
    cases p2 <;> rfl
  · simp only at h2
    subst h2
    cases p1 <;> rfl

theorem formatLoop_append_skip {p : Option String × Option String}
    (hp : p.1 = none ∨ p.2 = none) :
    ∀ (ps1 ps2 : List (Option String × Option String)) (buf : List Char),
      formatLoop buf (ps1 ++ p :: ps2) = formatLoop buf (ps1 ++ ps2) := by
  intro ps1
  induction ps1 with
  | nil => intro ps2 buf; exact formatLoop_skip hp ps2 buf
  | cons q ps1 ih =>
    intro ps2 buf
    obtain ⟨q1, q2⟩ := q
    cases q1 with
    | none => rw [List.cons_append, List.cons_append,
        show formatLoop buf ((none, q2) :: (ps1 ++ p :: ps2)) =
          formatLoop buf (ps1 ++ p :: ps2) from rfl,
        show formatLoop buf ((none, q2) :: (ps1 ++ ps2)) =
          formatLoop buf (ps1 ++ ps2) from rfl, ih ps2 buf]
    | some a =>
      cases q2 with
      | none => rw [List.cons_append, List.cons_append,
          show formatLoop buf ((some a, none) :: (ps1 ++ p :: ps2)) =
            formatLoop buf (ps1 ++ p :: ps2) from rfl,
          show formatLoop buf ((some a, none) :: (ps1 ++ ps2)) =
            formatLoop buf (ps1 ++ ps2) from rfl, ih ps2 buf]
      | some b => rw [List.cons_append, List.cons_append,
          show formatLoop buf ((some a, some b) :: (ps1 ++ p :: ps2)) =
            formatLoop (appendPair buf a b) (ps1 ++ p :: ps2) from rfl,
          show formatLoop buf ((some a, some b) :: (ps1 ++ ps2)) =
            formatLoop (appendPair buf a b) (ps1 ++ ps2) from rfl, ih ps2 _]

theorem pairsSize_append_skip {p : Option String × Option String}
    (hp : p.1 = none ∨ p.2 = none) :
    ∀ (ps1 ps2 : List (Option String × Option String)),
      pairsSize (ps1 ++ p :: ps2) = pairsSize (ps1 ++ ps2) := by
  intro ps1
  induction ps1 with
  | nil => intro ps2; exact pairsSize_skip hp ps2
  | cons q ps1 ih =>
    intro ps2
    obtain ⟨q1, q2⟩ := q
    cases q1 with
    | none => rw [List.cons_append, List.cons_append,
        show pairsSize ((none, q2) :: (ps1 ++ p :: ps2)) = pairsSize (ps1 ++ p :: ps2)
          from rfl,
        show pairsSize ((none, q2) :: (ps1 ++ ps2)) = pairsSize (ps1 ++ ps2) from rfl,
        ih ps2]
    | some a =>
      cases q2 with
      | none => rw [List.cons_append, List.cons_append,
          show pairsSize ((some a, none) :: (ps1 ++ p :: ps2)) = pairsSize (ps1 ++ p :: ps2)
            from rfl,
          show pairsSize ((some a, none) :: (ps1 ++ ps2)) = pairsSize (ps1 ++ ps2) from rfl,
          ih ps2]
      | some b => rw [List.cons_append, List.cons_append,
          show pairsSize ((some a, some b) :: (ps1 ++ p :: ps2)) =
            a.length + b.length + 4 + pairsSize (ps1 ++ p :: ps2) from rfl,
          show pairsSize ((some a, some b) :: (ps1 ++ ps2)) =
            a.length + b.length + 4 + pairsSize (ps1 ++ ps2) from rfl,
          ih ps2]

/-- C10 (amended): a pair with a NULL key or value is skipped entirely by the
emit loop — the bounded run produces the same result with and without it —
and contributes nothing to the per-pair portion of the computed capacity,
though its presence still counts towards the `num_pairs > 0` test, so when
the remaining pairs are empty and the message is non-empty the capacity
computation reserves one extra separator byte; and the separator space is
inserted before a `key="value"` token only when the accumulated output is
non-empty and does not already end in a space, so a message ending in a
space whose line fits the allocation is followed directly by the first
token. -/
theorem c10_formatter_details :
    ∀ (msg : Option String) (ps1 ps2 : List (Option String × Option String))
      (p : Option String × Option String) (m k v : String)
      (rest : List (Option String × Option String)),
      p.1 = none ∨ p.2 = none →
      (format_logfmt msg (ps1 ++ p :: ps2) = format_logfmt msg (ps1 ++ ps2)) ∧
      (requiredSize msg (ps1 ++ p :: ps2) =
        requiredSize msg (ps1 ++ ps2) +
          (if ps1 ++ ps2 = [] ∧ msgNonempty msg = true then 1 else 0)) ∧
      (m.data.getLast? = some spChar →
        (lineText (some m) ((some k, some v) :: rest)).length + 1 ≤
          requiredSize (some m) ((some k, some v) :: rest) →
        format_logfmt (some m) ((some k, some v) :: rest) =
          some (formatLoop (m.data ++ logfmtToken k v) rest)) := by
  intro msg ps1 ps2 p m k v rest hp
  have hsize : requiredSize msg (ps1 ++ p :: ps2) =
      requiredSize msg (ps1 ++ ps2) +
        (if ps1 ++ ps2 = [] ∧ msgNonempty msg = true then 1 else 0) := by
    unfold requiredSize
    rw [pairsSize_append_skip hp ps1 ps2]
    have hlen1 : 0 < (ps1 ++ p :: ps2).length := by simp
    by_cases hm : msgNonempty msg = true
    · by_cases he : ps1 ++ ps2 = []
      · rw [if_pos ⟨hlen1, hm⟩, if_neg (by simp [he]), if_pos ⟨he, hm⟩]
      · rw [if_pos ⟨hlen1, hm⟩, if_pos ⟨List.length_pos.mpr he, hm⟩,
          if_neg (by simp [he])]
    · rw [if_neg (by simp [hm]), if_neg (by simp [hm]), if_neg (by simp [hm])]
  refine ⟨?_, hsize, ?_⟩
  · rw [format_logfmt_eq, format_logfmt_eq]
    have hL : lineText msg (ps1 ++ p :: ps2) = lineText msg (ps1 ++ ps2) := by
      unfold lineText
      exact formatLoop_append_skip hp ps1 ps2 _
    rw [hL, hsize]
    by_cases hd : ps1 ++ ps2 = [] ∧ msgNonempty msg = true
    · rw [if_pos hd]
      obtain ⟨he, hm⟩ := hd
      obtain ⟨he1, he2⟩ := List.append_eq_nil.mp he
      subst he1
      subst he2
      cases msg with
      | none => simp [msgNonempty] at hm
      | some m2 =>
        simp only [List.nil_append]
        have hrs : requiredSize (some m2) [] = m2.length + 1 := by
          simp [requiredSize, pairsSize]
        rw [show lineText (some m2) [] = m2.data from rfl, hrs]
        unfold fitted
        rw [if_pos (show m2.data.length + 1 ≤ m2.length + 1 + 1 from by
            rw [show m2.data.length = m2.length from rfl]
            omega),
          if_pos (show m2.data.length + 1 ≤ m2.length + 1 from by
            rw [show m2.data.length = m2.length from rfl])]
    · rw [if_neg hd, Nat.add_zero]
  · intro hlast hfit
    rw [format_logfmt_eq]
    unfold fitted
    rw [if_pos hfit]
    congr 1
    show formatLoop (appendPair m.data k v) rest = _
    rw [appendPair_eq, if_neg (fun hcontra => hcontra.2 hlast)]

/-- C10 (counterexample): a pair with NULL key and value does change the
computed capacity when it is the only pair of a non-empty message:
`required_size` is 3 with the pair present but 2 without it, because the
one-byte separator reserve is keyed on `num_pairs > 0`, which counts skipped
pairs. -/
theorem c10_formatter_counterexample :
    requiredSize (some "m") [(none, none)] ≠ requiredSize (some "m") [] := by
  decide

/-- Witness for the amended C10 at concrete inputs (the separator-suppression
conjunct is applied at message `"m "` and pair `k`/`v`, whose 7-byte line
fits the 10-byte allocation). -/
theorem c10_formatter_details_witness :
    (format_logfmt (some "m") ([] ++ (none, some "x") :: [(some "a", some "b")]) =
      format_logfmt (some "m") ([] ++ [(some "a", some "b")])) ∧
    (requiredSize (some "m") ([] ++ (none, some "x") :: [(some "a", some "b")]) =
      requiredSize (some "m") ([] ++ [(some "a", some "b")]) +
        (if ([] ++ [(some "a", some "b")] :
            List (Option String × Option String)) = [] ∧
          msgNonempty (some "m") = true then 1 else 0)) ∧
    (format_logfmt (some "m ") ((some "k", some "v") :: []) =
      some (formatLoop (("m ").data ++ logfmtToken "k" "v") [])) :=
  ⟨(c10_formatter_details (some "m") [] [(some "a", some "b")] (none, some "x")
      "m " "k" "v" [] (Or.inl rfl)).1,
   (c10_formatter_details (some "m") [] [(some "a", some "b")] (none, some "x")
      "m " "k" "v" [] (Or.inl rfl)).2.1,
   (c10_formatter_details (some "m") [] [(some "a", some "b")] (none, some "x")
      "m " "k" "v" [] (Or.inl rfl)).2.2 (by decide) (by decide)⟩

/-- C8: the fallback extractor returns, for a non-null record pointer, exactly
one pair `{"unknown_error_type": "unhandled_type_at_address_<hex>"}` with the
pointer's address and count 1, and for a NULL pointer no pairs with count 0
(allocation is modelled as succeeding). -/
theorem c8_unknown_extractor :
    ∀ (a : Nat),
      parse_unknown_error (some a) =
        (some [("unknown_error_type", "unhandled_type_at_address_" ++ ptrStr a)], 1) ∧
        parse_unknown_error none = (none, 0) :=
  fun _ => ⟨rfl, rfl⟩

end Slog